import Mathlib

/-!
Shallow embedding of `tools/medals/fetch_medals.py` and
`tools/medals/etag_check.py` (medal-table scraping pipeline), together with
theorems settling the specification claims about it.

Strings are modelled as Lean `String` (a list of Unicode scalar values),
matching Python's `str` as a sequence of code points.  Python `re` and
`unicodedata` behaviour is modelled directly on `List Char`.
-/

namespace Medals

/-- Characters matched by Python's `\s` (Unicode mode), restricted to the
whitespace code points; used by `re.sub(r"\s+", " ", ...)` and `str.strip()`. -/
def pyIsSpace (c : Char) : Bool :=
  c ∈ [' ', '\t', '\n', '\x0b', '\x0c', '\r',
       '\x1c', '\x1d', '\x1e', '\x1f', '\x85', '\xa0',
       ' ', ' ', ' ', ' ', ' ', ' ', ' ',
       ' ', ' ', ' ', ' ', ' ',
       ' ', ' ', ' ', ' ', '　']

/-- Scanning helper for the regex `\[.*?\]` (no DOTALL, so `.` never matches a
newline): starting just after a `[`, drop characters up to and including the
first `]`; fail if a newline or the end of the string is reached first. -/
def dropToClose : List Char → Option (List Char)
  | [] => none
  | c :: cs => if c = ']' then some cs else if c = '\n' then none else dropToClose cs

/-- Fuelled left-to-right scan implementing `re.sub(r"\[.*?\]", "", text)`:
at each `[` from which a `]` is reachable with no intervening newline, the
bracketed segment is removed; otherwise the character is kept. -/
def sbF : Nat → List Char → List Char
  | _, [] => []
  | 0, l => l
  | fuel + 1, c :: cs =>
    if c = '[' then
      match dropToClose cs with
      | some cs' => sbF fuel cs'
      | none => c :: sbF fuel cs
    else c :: sbF fuel cs

/-- Removal of bracketed citation markers, as `re.sub(r"\[.*?\]", "", text)`. -/
def stripBrackets (l : List Char) : List Char := sbF l.length l

/-- The substitution `text.replace("\xa0", " ")`. -/
def nbspToSpace (c : Char) : Char := if c = '\xa0' then ' ' else c

/-- Characters removed by `.replace("†", "").replace("‡", "").replace("*", "")`. -/
def isDagger (c : Char) : Bool := c = '†' || c = '‡' || c = '*'

/-- First half of `re.sub(r"\s+", " ", text)`: every whitespace character
becomes a plain space. -/
def wsToSpace (c : Char) : Char := if pyIsSpace c then ' ' else c

/-- One step of space collapsing: prepend `c` to an already-collapsed
list, dropping `c` when it would create an adjacent pair of spaces. -/
def squeezeCons (c : Char) : List Char → List Char
  | [] => [c]
  | d :: ds => if c = ' ' && d = ' ' then d :: ds else c :: d :: ds

/-- Second half of `re.sub(r"\s+", " ", text)`: adjacent spaces collapse. -/
def squeezeSpaces : List Char → List Char
  | [] => []
  | c :: cs => squeezeCons c (squeezeSpaces cs)

/-- Removal of trailing whitespace, via the reversal of the list. -/
def dropTrailing (l : List Char) : List Char :=
  (List.dropWhile pyIsSpace l.reverse).reverse

/-- The call `text.strip()` (at the point it is applied, every whitespace
character in the text is a plain space). -/
def stripEnds (l : List Char) : List Char :=
  dropTrailing (List.dropWhile pyIsSpace l)

/-- Body of `normalize_text` on a list of code points. -/
def normCore (l : List Char) : List Char :=
  stripEnds (squeezeSpaces
    (List.map wsToSpace
      (List.filter (fun c => !isDagger c)
        (List.map nbspToSpace (stripBrackets l)))))

/-- The function `normalize_text` of `fetch_medals.py` on string input:
removes bracketed citation markers, replaces non-breaking spaces by spaces,
deletes the glyphs †, ‡ and *, collapses whitespace runs to single spaces and
trims. -/
def normalize_text (s : String) : String := ⟨normCore s.data⟩

/-- The function `normalize_text` applied to a table cell that may be missing
(`None` in Python yields the empty string). -/
def normalize_val : Option String → String
  | none => ""
  | some s => normalize_text s

/-- The static table `NAME_OVERRIDES` of `fetch_medals.py`. -/
def NAME_OVERRIDES : List (String × String) :=
  [("Czechia", "Czech Republic"),
   ("Türkiye", "Turkey"),
   ("United States", "United States of America"),
   ("United States of America", "United States of America"),
   ("Great Britain", "Great Britain"),
   ("Russia", "Russian Federation"),
   ("Korea", "South Korea"),
   ("Korea, South", "South Korea"),
   ("Korea, North", "North Korea"),
   ("People's Republic of China", "China"),
   ("Hong Kong", "Hong Kong, China"),
   ("Côte d'Ivoire", "Cote d'Ivoire"),
   ("Curaçao", "Curacao")]

/-- Python `NAME_OVERRIDES.get(text, text)`. -/
def lookupOverride (s : String) : String :=
  match NAME_OVERRIDES.find? (fun p => p.1 = s) with
  | some p => p.2
  | none => s

/-- NFKD decomposition (`unicodedata.normalize("NFKD", text)`), modelled on the
accented Latin letters that occur in `NAME_OVERRIDES` and in the inputs
considered in this development; every other character decomposes to itself. -/
def nfkdChar (c : Char) : List Char :=
  if c = 'ü' then ['u', '̈']
  else if c = 'Ü' then ['U', '̈']
  else if c = 'ç' then ['c', '̧']
  else if c = 'Ç' then ['C', '̧']
  else if c = 'ô' then ['o', '̂']
  else if c = 'Ô' then ['O', '̂']
  else if c = 'é' then ['e', '́']
  else if c = 'É' then ['E', '́']
  else [c]

/-- Combining marks (`unicodedata.combining(c) != 0`), restricted to the marks
producible by `nfkdChar`; every other character is not combining. -/
def isCombining (c : Char) : Bool :=
  c = '̀' || c = '́' || c = '̂' || c = '̈' || c = '̧'

/-- Python `str.lower()` restricted to ASCII letters (the only characters on
which it is applied after the `[^a-zA-Z0-9 ]` filter, and the only ones that
matter for the prefix test against "total"). -/
def asciiLower (c : Char) : Char :=
  if 'A' ≤ c && c ≤ 'Z' then Char.ofNat (c.toNat + 32) else c

/-- Python `str.lower()` on a whole string (ASCII model, see `asciiLower`). -/
def pyLower (s : String) : String := ⟨s.data.map asciiLower⟩

/-- Keep only the characters in `[a-zA-Z0-9 ]`, as `re.sub(r"[^a-zA-Z0-9 ]+", "", ...)`. -/
def isAlnumSpace (c : Char) : Bool :=
  ('a' ≤ c && c ≤ 'z') || ('A' ≤ c && c ≤ 'Z') || ('0' ≤ c && c ≤ '9') || c = ' '

/-- The function `name_key` of `fetch_medals.py`: normalize, substitute through
`NAME_OVERRIDES`, strip combining diacritics after NFKD decomposition, drop all
characters outside `[a-zA-Z0-9 ]`, lowercase and trim. -/
def name_key (s : String) : String :=
  let t := normalize_text s
  let t := lookupOverride t
  let l := (t.data.flatMap nfkdChar).filter (fun c => !isCombining c)
  let l := (l.filter isAlnumSpace).map asciiLower
  ⟨stripEnds l⟩

/-- Decimal digit test for the regex class `[0-9]` (ASCII only). -/
def isDigitChar (c : Char) : Bool := '0' ≤ c && c ≤ '9'

/-- Value of a list of decimal digits, as Python `int(text)` on a digit string. -/
def digitsToNat (l : List Char) : Nat :=
  l.foldl (fun a c => a * 10 + (c.toNat - '0'.toNat)) 0

/-- The local function `to_int` of `parse_medal_table`: normalize the cell,
strip every non-digit character, and parse the remaining digits as a decimal
integer, yielding 0 when no digit remains. -/
def to_int (v : Option String) : Int :=
  let text := (normalize_val v).data.filter isDigitChar
  if text = [] then 0 else (digitsToNat text : Int)

/-- Code-point comparison of strings as lists of characters, modelling
Python's `str` comparison (used via sort keys). -/
def strLe : List Char → List Char → Bool
  | [], _ => true
  | _ :: _, [] => false
  | c :: cs, d :: ds => if c = d then strLe cs ds else decide (c < d)

/-- Test that `pat` is an initial segment of `s`, as Python `str.startswith`. -/
def leadsWith : List Char → List Char → Bool
  | [], _ => true
  | _ :: _, [] => false
  | p :: ps, c :: cs => p = c && leadsWith ps cs

/-- The constant `MEDAL_URL` of `fetch_medals.py`. -/
def MEDAL_URL : String :=
  "https://en.wikipedia.org/w/rest.php/v1/page/2026_Winter_Olympics_medal_table/html"

/-- One output row, as the dict built in `parse_medal_table` (the key `is_eu`
is only added later by `add_eu_row`, hence an `Option Bool`). -/
structure Row where
  rank : Option Int := none
  country : String := ""
  noc : String := ""
  iso2 : Option String := none
  flag_url : Option String := none
  gold : Int := 0
  silver : Int := 0
  bronze : Int := 0
  total : Int := 0
  is_eu : Option Bool := none
deriving Repr, DecidableEq

/-- One raw table row with its cells already located by the column-discovery
heuristics of `parse_medal_table` (an absent column or a missing value is
`none`; `normalize_text` of `None` is the empty string either way).  The rank
column existing is modelled per row through `rankCell`. -/
structure RawRow where
  rankCell : Option String := none
  nationCell : Option String := none
  nocCell : Option String := none
  goldCell : Option String := none
  silverCell : Option String := none
  bronzeCell : Option String := none
  totalCell : Option String := none
deriving Repr, DecidableEq

/-- Result of processing one raw row inside the loop of `parse_medal_table`:
silently skipped (empty label or a "total" footer), recorded as unmapped, or
yielding an output row. -/
inductive RowOutcome where
  | skipped : RowOutcome
  | unmappedRow (label : String) : RowOutcome
  | ok (r : Row) : RowOutcome
deriving Repr, DecidableEq

/-- The static table `ISO2_OVERRIDES` of `fetch_medals.py`. -/
def ISO2_OVERRIDES : List (String × String) :=
  [("EU27", "EU"),
   ("EU", "EU"),
   ("Great Britain", "GB"),
   ("United States of America", "US"),
   ("United States", "US"),
   ("Russia", "RU"),
   ("Russian Federation", "RU"),
   ("Czech Republic", "CZ"),
   ("Czechia", "CZ"),
   ("Türkiye", "TR"),
   ("Turkey", "TR"),
   ("South Korea", "KR"),
   ("North Korea", "KP"),
   ("Korea", "KR"),
   ("China", "CN"),
   ("People's Republic of China", "CN"),
   ("Hong Kong, China", "HK"),
   ("Hong Kong", "HK"),
   ("Cote d'Ivoire", "CI"),
   ("Côte d'Ivoire", "CI"),
   ("Viet Nam", "VN"),
   ("Vietnam", "VN"),
   ("Iran", "IR"),
   ("Iran, Islamic Republic of", "IR"),
   ("Moldova", "MD"),
   ("Bolivia", "BO"),
   ("Venezuela", "VE"),
   ("Syria", "SY")]

/-- The function `iso2_from_country`: empty names resolve to nothing, then the
static override table, then the external fuzzy matcher (`pycountry`), which is
an external collaborator modelled as the abstract `resolver` argument
(returning `none` on its failure branch). -/
def iso2_from_country (resolver : String → Option String) (country_name : String) :
    Option String :=
  if country_name = "" then none
  else
    match ISO2_OVERRIDES.find? (fun p => p.1 = country_name) with
    | some p => some p.2
    | none => resolver country_name

/-- Python truthiness of an optional string (`None` and `""` are falsy). -/
def truthyStr : Option String → Bool
  | none => false
  | some s => decide (s ≠ "")

/-- The per-row body of the loop in `parse_medal_table` (lines 242-281 of
`fetch_medals.py`): normalize the labels, apply `NAME_OVERRIDES`, skip empty
and "total" rows, parse the medal counts, repair a zero total, resolve the
NOC (trusting a 3-character raw value, else the registry keyed by `name_key`),
record unmapped labels, canonicalise the display name and derive iso2/flag. -/
def extract_row (name_to_noc noc_to_name resolver : String → Option String)
    (row : RawRow) : RowOutcome :=
  let country_raw := normalize_val row.nationCell
  let noc_raw := normalize_val row.nocCell
  let country := lookupOverride country_raw
  if country = "" || leadsWith ("total".data) ((pyLower country).data) then .skipped
  else
    let gold := to_int row.goldCell
    let silver := to_int row.silverCell
    let bronze := to_int row.bronzeCell
    let total0 := to_int row.totalCell
    let total := if total0 = 0 then gold + silver + bronze else total0
    let noc? : Option String :=
      if noc_raw ≠ "" && noc_raw.length = 3 then some noc_raw
      else name_to_noc (name_key country)
    match noc? with
    | none => .unmappedRow country
    | some noc =>
      if noc = "" then .unmappedRow country
      else
        let country_name := match noc_to_name noc with | some n => n | none => country
        let iso2 := iso2_from_country resolver country_name
        let flag_url :=
          if truthyStr iso2 then
            some ("https://flagcdn.com/w40/" ++ pyLower (iso2.getD ("")) ++ ".png")
          else none
        .ok { rank := row.rankCell.map (fun v => to_int (some v)),
              country := country_name, noc := noc, iso2 := iso2, flag_url := flag_url,
              gold := gold, silver := silver, bronze := bronze, total := total,
              is_eu := none }

/-- Projection selecting the produced row of a `RowOutcome`. -/
def rowOk : RowOutcome → Option Row
  | .ok r => some r
  | _ => none

/-- Projection selecting the unmapped label of a `RowOutcome`. -/
def rowUnmapped : RowOutcome → Option String
  | .unmappedRow l => some l
  | _ => none

/-- Python `sorted(set(l))` on strings: the distinct elements in ascending
code-point order (`List.insertionSort` of `List.dedup`). -/
def sortedSet (l : List String) : List String :=
  List.insertionSort (fun a b => strLe a.data b.data = true) l.dedup

/-- The function `parse_medal_table` restricted to its row loop (the column
discovery having produced the `RawRow`s): returns the extracted rows and
`sorted(set(unmapped))`. -/
def parse_medal_table (name_to_noc noc_to_name resolver : String → Option String)
    (table : List RawRow) : List Row × List String :=
  let outs := table.map (extract_row name_to_noc noc_to_name resolver)
  (outs.filterMap rowOk, sortedSet (outs.filterMap rowUnmapped))

/-- Sort key tuple `(gold, silver, bronze, total)` used by `compute_rank`. -/
def keyOf (r : Row) : Int × Int × Int × Int := (r.gold, r.silver, r.bronze, r.total)

/-- The sort order of `compute_rank`: ascending in the Python key
`(-gold, -silver, -bronze, -total, country)`, that is, descending in the
medal tuple with the country name (code-point order) as final tie-break. -/
def keyOrder (a b : Row) : Prop :=
  b.gold < a.gold ∨ (a.gold = b.gold ∧
    (b.silver < a.silver ∨ (a.silver = b.silver ∧
      (b.bronze < a.bronze ∨ (a.bronze = b.bronze ∧
        (b.total < a.total ∨ (a.total = b.total ∧
          strLe a.country.data b.country.data = true)))))))

instance : DecidableRel keyOrder := fun a b => by unfold keyOrder; infer_instance

/-- Python `sorted(rows, key=...)` is a stable sort; for a total transitive
comparator every stable sort yields the same list, so `List.insertionSort`
(which is stable) models it exactly. -/
def pySortRows (l : List Row) : List Row := List.insertionSort keyOrder l

/-- The rank-assignment loop of `compute_rank`: 1-based position index, rank
updated to the position exactly when the medal tuple differs from the
previous one. -/
def assignRanks : List Row → Nat → Option (Int × Int × Int × Int) → Int → List Row
  | [], _, _, _ => []
  | r :: rs, idx, prev, rank =>
    { r with rank := some (if prev = some (keyOf r) then rank else (idx : Int)) } ::
      assignRanks rs (idx + 1) (some (keyOf r))
        (if prev = some (keyOf r) then rank else (idx : Int))

/-- The function `compute_rank` of `fetch_medals.py`. -/
def compute_rank (rows : List Row) : List Row := assignRanks (pySortRows rows) 1 none 0

/-- One entry of the member-set config file (a JSON object whose keys may be
absent; a missing `eu_member` is falsy). -/
structure MemberEntry where
  noc : Option String := none
  eu_member : Bool := false
deriving Repr, DecidableEq

/-- The member-set config file `eu_members.json`. -/
structure EuConfig where
  members : List MemberEntry := []
deriving Repr, DecidableEq

/-- The function `load_eu_members`: an absent config file defaults to an empty
member list; only entries with `eu_member` true are kept. -/
def load_eu_members (cfg : Option EuConfig) : List MemberEntry :=
  (cfg.getD {}).members.filter (fun m => m.eu_member)

/-- The set comprehension of `add_eu_row`: the member NOCs with truthy `noc`. -/
def memberNocs (eu_members : List MemberEntry) : List String :=
  eu_members.filterMap (fun m =>
    match m.noc with
    | some n => if n = "" then none else some n
    | none => none)

/-- The synthetic aggregate row appended by `add_eu_row`. -/
def euRowOf (rows : List Row) (nocs : List String) : Row :=
  let gold := ((rows.filter (fun r => r.noc ∈ nocs)).map (fun r => r.gold)).sum
  let silver := ((rows.filter (fun r => r.noc ∈ nocs)).map (fun r => r.silver)).sum
  let bronze := ((rows.filter (fun r => r.noc ∈ nocs)).map (fun r => r.bronze)).sum
  { rank := none, country := "European Union", noc := "EU27", iso2 := some ("EU"),
    flag_url := some ("https://flagcdn.com/w40/eu.png"),
    gold := gold, silver := silver, bronze := bronze,
    total := gold + silver + bronze, is_eu := some true }

/-- The function `add_eu_row` of `fetch_medals.py`: mark `is_eu` on every row
and append the aggregate row. -/
def add_eu_row (rows : List Row) (eu_members : List MemberEntry) : List Row :=
  let nocs := memberNocs eu_members
  (rows.map (fun r => { r with is_eu := some (decide (r.noc ∈ nocs)) })) ++
    [euRowOf rows nocs]

/-- The persisted metadata `medals_meta.json` with the defaults used by `main`
when the file is absent. -/
structure Meta where
  last_etag : Option String := none
  last_modified : Option String := none
  last_revision_id : Option String := none
  last_update_utc : Option String := none
  source_url : String := MEDAL_URL
  unmapped_countries : List String := []
deriving Repr, DecidableEq

/-- Observable file effects of one run: the exit code and, for each artifact,
the data written to it (`none` when the file is not (re)written). -/
structure RunEffects where
  exitCode : Nat
  wroteCsv : Option (List Row)
  wroteJson : Option (List Row)
  wroteMeta : Option Meta
deriving Repr, DecidableEq

/-- ETag short-circuit test of `main` (lines 400-406): with the force flag
unset, a truthy fresh ETag equal to the stored one. -/
def etagMatch (meta : Meta) (etag : Option String) : Bool :=
  truthyStr etag && decide (meta.last_etag = etag)

/-- Last-Modified short-circuit test of `main` (second branch). -/
def lastModifiedMatch (meta : Meta) (lm : Option String) : Bool :=
  truthyStr lm && decide (meta.last_modified = lm)

/-- The change-detection short-circuit of `main`: skipped entirely under
`--force`, otherwise ETag match first, then Last-Modified match. -/
def shortCircuit (force : Bool) (meta : Meta) (etag lm : Option String) : Bool :=
  !force && (etagMatch meta etag || lastModifiedMatch meta lm)

/-- The function `main` of `etag_check.py` (lines 49-53): the `changed`
boolean it reports and writes to the CI output sink. -/
def etag_check_changed (meta : Meta) (etag lm : Option String) : Bool :=
  if etagMatch meta etag then false
  else if lastModifiedMatch meta lm then false
  else true

/-- The function `write_outputs`: ranks the rows (calling `compute_rank`),
writes CSV and JSON with the ranked rows, and persists the metadata with the
given unmapped list. -/
def write_outputs (rows : List Row) (meta : Meta) (unmapped : List String) :
    RunEffects :=
  let ranked := compute_rank rows
  { exitCode := 0, wroteCsv := some ranked, wroteJson := some ranked,
    wroteMeta := some { meta with unmapped_countries := unmapped } }

/-- Body of `main` after the change-detection check (lines 408-427): update
the metadata fields, parse the table, and either persist the metadata and
abort with a `RuntimeError` (non-zero process exit) when some country is
unmapped, or aggregate, rank and write all outputs. -/
def run_body (meta : Meta) (etag lm : Option String) (now : String)
    (name_to_noc noc_to_name resolver : String → Option String)
    (euCfg : Option EuConfig) (table : List RawRow) : RunEffects :=
  let meta := { meta with
    last_etag := etag, last_modified := lm,
    last_revision_id := if truthyStr etag then etag else meta.last_revision_id,
    last_update_utc := some now, source_url := MEDAL_URL }
  let pr := parse_medal_table name_to_noc noc_to_name resolver table
  if pr.2 ≠ [] then
    { exitCode := 1, wroteCsv := none, wroteJson := none,
      wroteMeta := some { meta with unmapped_countries := pr.2 } }
  else
    write_outputs (add_eu_row pr.1 (load_eu_members euCfg)) meta pr.2

/-- The function `main` of `fetch_medals.py` after the fetch, as a pure
function of the fetched headers and parsed table: the "no changes"
short-circuit returns exit code 0 writing nothing, otherwise `run_body`. -/
def main_model (force : Bool) (meta : Meta) (etag lm : Option String) (now : String)
    (name_to_noc noc_to_name resolver : String → Option String)
    (euCfg : Option EuConfig) (table : List RawRow) : RunEffects :=
  if shortCircuit force meta etag lm then
    { exitCode := 0, wroteCsv := none, wroteJson := none, wroteMeta := none }
  else run_body meta etag lm now name_to_noc noc_to_name resolver euCfg table

/-- Erase the rank field; two rows agreeing after `stripRank` carry the same
payload and differ at most in their (recomputed) rank. -/
def stripRank (r : Row) : Row := { r with rank := none }

/-- The per-row `is_eu` marking performed by `add_eu_row`. -/
def markEu (nocs : List String) (r : Row) : Row :=
  { r with is_eu := some (decide (r.noc ∈ nocs)) }

/-- Bracket-closedness: no `[` is ever followed (at any distance) by a `]`.
On such a list the citation-marker regex has no match, so `stripBrackets`
is the identity. -/
def goodB (l : List Char) : Prop :=
  List.Pairwise (fun a b => ¬(a = '[' ∧ b = ']')) l

/-- Absence of adjacent double spaces, the invariant of whitespace
collapsing. -/
def noDoubleSpace (l : List Char) : Prop :=
  List.Chain' (fun a b => ¬(a = ' ' ∧ b = ' ')) l

/-- Per-row invariant claimed for the final output: the flag URL is present
exactly when iso2 is present, and is then the flag template instantiated with
the lowercased iso2 code. -/
def flagInvariant (r : Row) : Prop :=
  (r.flag_url.isSome ↔ r.iso2.isSome) ∧
  ∀ i, r.iso2 = some i →
    r.flag_url = some ("https://flagcdn.com/w40/" ++ pyLower i ++ ".png")

-- ### Concrete fixtures used to instantiate the theorems below

/-- A tiny NOC registry (name-key to NOC direction) used for witnesses. -/
def witnessNoc : String → Option String :=
  fun s => if s = "germany" then some ("GER") else none

/-- A tiny NOC registry (NOC to display-name direction) used for witnesses. -/
def witnessName : String → Option String :=
  fun s => if s = "GER" then some ("Germany") else none

/-- A fuzzy matcher that never matches (the `except` branch of
`iso2_from_country`). -/
def noResolver : String → Option String := fun _ => none

/-- Raw row with a parsed total of 0 (blank total column repaired). -/
def rowTotalZero : RawRow :=
  { nationCell := some ("Germany"), goldCell := some ("1"), silverCell := some ("1"),
    bronzeCell := some ("0"), totalCell := some ("0") }

/-- Raw row with a parsed non-zero total that is kept as-is. -/
def rowTotalFive : RawRow :=
  { nationCell := some ("Germany"), goldCell := some ("1"), silverCell := some ("1"),
    bronzeCell := some ("0"), totalCell := some ("5") }

/-- Raw row whose label resolves to no NOC. -/
def rowAtlantis : RawRow := { nationCell := some ("Atlantis"), goldCell := some ("1") }

/-- Output row extracted from `rowTotalZero` by the witness registry. -/
def rowOkZero : Row :=
  { country := "Germany", noc := "GER", gold := 1, silver := 1, bronze := 0, total := 2 }

/-- Output row extracted from `rowTotalFive` by the witness registry. -/
def rowOkFive : Row :=
  { country := "Germany", noc := "GER", gold := 1, silver := 1, bronze := 0, total := 5 }

/-- The three rows of the ranking test vector (medal tuples (3,2,1,6),
(3,2,1,6) and (2,0,0,2)). -/
def exampleRows : List Row :=
  [{ country := "A", gold := 3, silver := 2, bronze := 1, total := 6 },
   { country := "B", gold := 3, silver := 2, bronze := 1, total := 6 },
   { country := "C", gold := 2, silver := 0, bronze := 0, total := 2 }]

/-- Member row with medals (1,0,0) for the aggregation test vector. -/
def rowMemA : Row := { noc := "AAA", gold := 1 }

/-- Member row with medals (0,1,0) for the aggregation test vector. -/
def rowMemB : Row := { noc := "BBB", silver := 1 }

/-- Non-member row with medals (5,0,0) for the aggregation test vector. -/
def rowNonC : Row := { noc := "CCC", gold := 5 }

end Medals

namespace Medals

-- ### Order lemmas for the sort comparator

theorem strLe_trans : ∀ (a b c : List Char),
    strLe a b = true → strLe b c = true → strLe a c = true := by
  intro a
  induction a with
  | nil => intro b c _ _; simp [strLe]
  | cons x xs ih =>
    intro b c h1 h2
    cases b with
    | nil => simp [strLe] at h1
    | cons y ys =>
      cases c with
      | nil => simp [strLe] at h2
      | cons z zs =>
        simp only [strLe] at h1 h2 ⊢
        by_cases hxy : x = y <;> by_cases hyz : y = z
        · subst hxy; subst hyz
          simp only [if_pos rfl] at h1 h2 ⊢
          exact ih ys zs h1 h2
        · subst hxy
          simp only [if_pos rfl, if_neg hyz] at h1 h2 ⊢
          exact h2
        · subst hyz
          simp only [if_pos rfl, if_neg hxy] at h1 h2 ⊢
          exact h1
        · simp only [if_neg hxy, if_neg hyz, decide_eq_true_eq] at h1 h2
          have hxz : x < z := lt_trans h1 h2
          rw [if_neg (ne_of_lt hxz)]
          exact decide_eq_true hxz
  -- the remaining case split closes by transitivity of the character order

theorem strLe_total : ∀ (a b : List Char), strLe a b = true ∨ strLe b a = true := by
  intro a
  induction a with
  | nil => intro b; left; simp [strLe]
  | cons x xs ih =>
    intro b
    cases b with
    | nil => right; simp [strLe]
    | cons y ys =>
      simp only [strLe]
      by_cases hxy : x = y
      · subst hxy; simp only [if_pos rfl]; exact ih ys
      · rcases lt_or_gt_of_ne hxy with h | h
        · left; rw [if_neg hxy]; exact decide_eq_true h
        · right; rw [if_neg (Ne.symm hxy)]; exact decide_eq_true h

/-- Transitivity step for one level of the lexicographic comparison. -/
theorem lexStep_trans {x y z : Int} {P Q R : Prop} (hpq : P → Q → R)
    (h1 : y < x ∨ (x = y ∧ P)) (h2 : z < y ∨ (y = z ∧ Q)) :
    z < x ∨ (x = z ∧ R) := by
  rcases h1 with h1 | ⟨e1, p⟩ <;> rcases h2 with h2 | ⟨e2, q⟩
  · exact Or.inl (lt_trans h2 h1)
  · exact Or.inl (e2 ▸ h1)
  · exact Or.inl (by omega)
  · exact Or.inr ⟨e1.trans e2, hpq p q⟩

/-- Totality step for one level of the lexicographic comparison. -/
theorem lexStep_total {x y : Int} {P Q : Prop} (h : P ∨ Q) :
    (y < x ∨ (x = y ∧ P)) ∨ (x < y ∨ (y = x ∧ Q)) := by
  rcases lt_trichotomy y x with hlt | he | hgt
  · exact Or.inl (Or.inl hlt)
  · rcases h with p | q
    · exact Or.inl (Or.inr ⟨he.symm, p⟩)
    · exact Or.inr (Or.inr ⟨he, q⟩)
  · exact Or.inr (Or.inl hgt)

instance : IsTrans Row keyOrder :=
  ⟨fun a b c h1 h2 =>
    lexStep_trans (fun p1 p2 =>
      lexStep_trans (fun q1 q2 =>
        lexStep_trans (fun s1 s2 =>
          lexStep_trans (fun t1 t2 => strLe_trans _ _ _ t1 t2) s1 s2) q1 q2) p1 p2) h1 h2⟩

instance : IsTotal Row keyOrder :=
  ⟨fun a b =>
    lexStep_total (lexStep_total (lexStep_total (lexStep_total
      (strLe_total a.country.data b.country.data))))⟩

/-- The key and the comparator ignore the rank field. -/
theorem keyOf_stripRank (r : Row) : keyOf (stripRank r) = keyOf r := rfl

theorem rank_setRank (r : Row) (v : Option Int) : (Row.rank { r with rank := v }) = v := rfl

theorem keyOf_setRank (r : Row) (v : Option Int) : keyOf { r with rank := v } = keyOf r := rfl

theorem keyOrder_stripRank (a b : Row) :
    keyOrder (stripRank a) (stripRank b) ↔ keyOrder a b := Iff.rfl

-- ### Lemmas about the rank-assignment loop

theorem assignRanks_length (l : List Row) (i : Nat)
    (p : Option (Int × Int × Int × Int)) (k : Int) :
    (assignRanks l i p k).length = l.length := by
  induction l generalizing i p k with
  | nil => rfl
  | cons r rs ih => simp [assignRanks, ih]

theorem assignRanks_map_stripRank (l : List Row) (i : Nat)
    (p : Option (Int × Int × Int × Int)) (k : Int) :
    (assignRanks l i p k).map stripRank = l.map stripRank := by
  induction l generalizing i p k with
  | nil => rfl
  | cons r rs ih =>
    simp only [assignRanks, List.map_cons, ih]
    rfl

theorem assignRanks_rank_isSome (l : List Row) (i : Nat)
    (p : Option (Int × Int × Int × Int)) (k : Int) :
    ∀ r ∈ assignRanks l i p k, r.rank.isSome := by
  induction l generalizing i p k with
  | nil => intro r h; cases h
  | cons a as ih =>
    intro r h
    rcases List.mem_cons.mp h with rfl | h
    · rfl
    · exact ih _ _ _ r h

theorem compute_rank_map_stripRank (rows : List Row) :
    (compute_rank rows).map stripRank = (pySortRows rows).map stripRank :=
  assignRanks_map_stripRank _ _ _ _

theorem compute_rank_perm (rows : List Row) :
    ((compute_rank rows).map stripRank).Perm (rows.map stripRank) := by
  rw [compute_rank_map_stripRank]
  exact (List.perm_insertionSort keyOrder rows).map stripRank

theorem pairwise_keyOrder_of_map_stripRank {l l' : List Row}
    (h : l.map stripRank = l'.map stripRank) (hp : List.Pairwise keyOrder l') :
    List.Pairwise keyOrder l := by
  have h1 : List.Pairwise keyOrder (l'.map stripRank) :=
    List.pairwise_map.mpr (hp.imp (fun hab => (keyOrder_stripRank _ _).mpr hab))
  rw [← h] at h1
  exact (List.pairwise_map.mp h1).imp (fun hab => (keyOrder_stripRank _ _).mp hab)

theorem compute_rank_sorted (rows : List Row) :
    List.Sorted keyOrder (compute_rank rows) :=
  pairwise_keyOrder_of_map_stripRank (compute_rank_map_stripRank rows)
    (List.sorted_insertionSort keyOrder rows)

/-- Consecutive-rank rule of the loop: each row after the first receives the
previous row's rank when the medal tuples agree, and its own 1-based position
(`i + j + 1` when the loop starts at position `i`) otherwise. -/
theorem assignRanks_consec :
    ∀ (l : List Row) (i : Nat) (p : Option (Int × Int × Int × Int)) (k : Int)
      (j : Nat) (h2 : j + 1 < (assignRanks l i p k).length)
      (h1 : j < (assignRanks l i p k).length),
      ((assignRanks l i p k).get ⟨j + 1, h2⟩).rank =
        (if keyOf ((assignRanks l i p k).get ⟨j, h1⟩) =
            keyOf ((assignRanks l i p k).get ⟨j + 1, h2⟩)
         then ((assignRanks l i p k).get ⟨j, h1⟩).rank
         else some ((i + j + 1 : Nat) : Int)) := by
  intro l
  induction l with
  | nil => intro i p k j h2 h1; simp [assignRanks] at h2
  | cons r rs ih =>
    intro i p k j h2 h1
    cases rs with
    | nil =>
      rw [assignRanks, assignRanks] at h2
      simp at h2
    | cons r2 rs2 =>
      cases j with
      | zero =>
        by_cases hk : keyOf r = keyOf r2 <;>
          simp [assignRanks, List.get, rank_setRank, keyOf_setRank, hk]
      | succ j' =>
        have h2' : j' + 1 < (assignRanks (r2 :: rs2) (i + 1)
            (some (keyOf r)) (if p = some (keyOf r) then k else (i : Int))).length := by
          rw [assignRanks_length] at h2 ⊢
          simp only [List.length_cons] at h2 ⊢
          omega
        have h1' : j' < (assignRanks (r2 :: rs2) (i + 1)
            (some (keyOf r)) (if p = some (keyOf r) then k else (i : Int))).length := by
          rw [assignRanks_length]
          rw [assignRanks_length] at h2
          simp only [List.length_cons] at h2 ⊢
          omega
        have key := ih (i + 1) (some (keyOf r))
          (if p = some (keyOf r) then k else (i : Int)) j' h2' h1'
        have ecast : ((i + 1 + j' + 1 : Nat) : Int) = ((i + (j' + 1) + 1 : Nat) : Int) := by
          norm_num
          omega
        rw [ecast] at key
        exact key

/-- The first row of a ranked non-empty list has rank 1. -/
theorem assignRanks_head_rank (l : List Row)
    (h : 0 < (assignRanks l 1 none 0).length) :
    ((assignRanks l 1 none 0).get ⟨0, h⟩).rank = some 1 := by
  cases l with
  | nil => simp [assignRanks] at h
  | cons r rs => simp [assignRanks, List.get]

/-- The first row of `compute_rank` output has rank 1. -/
theorem compute_rank_head (rows : List Row) (h : 0 < (compute_rank rows).length) :
    ((compute_rank rows).get ⟨0, h⟩).rank = some 1 :=
  assignRanks_head_rank (pySortRows rows) h

-- ### Inversion of successful row extraction

/-- Field characterisation of a successfully extracted row: the medal counts
come from `to_int` on the corresponding cells, the total is repaired exactly
when the parsed total is 0, the flag URL is derived from the stored iso2 by
the lowercased template, `is_eu` is not yet set, and the iso2 is the result of
`iso2_from_country` on some name. -/
theorem extract_row_ok_inv {n1 n2 res : String → Option String} {row : RawRow} {r : Row}
    (h : extract_row n1 n2 res row = .ok r) :
    r.gold = to_int row.goldCell ∧ r.silver = to_int row.silverCell ∧
    r.bronze = to_int row.bronzeCell ∧
    r.total = (if to_int row.totalCell = 0
      then to_int row.goldCell + to_int row.silverCell + to_int row.bronzeCell
      else to_int row.totalCell) ∧
    r.flag_url = (if truthyStr r.iso2
      then some ("https://flagcdn.com/w40/" ++ pyLower (r.iso2.getD ("")) ++ ".png")
      else none) ∧
    r.is_eu = none ∧
    (∃ cn, r.iso2 = iso2_from_country res cn) := by
  simp only [extract_row] at h
  split at h
  · exact RowOutcome.noConfusion h
  · split at h
    · exact RowOutcome.noConfusion h
    · split at h
      · exact RowOutcome.noConfusion h
      · injection h with h
        subst h
        exact ⟨rfl, rfl, rfl, rfl, rfl, rfl, ⟨_, rfl⟩⟩

-- ### Claim theorems

/-- C2: `compute_rank` sorts the rows descending by the medal tuple
`(gold, silver, bronze, total)` with ascending country name as final
tie-break (this is `keyOrder`), preserves the row payload up to rank
reassignment, gives the first row rank 1, and gives each later row the
previous row's rank exactly when their medal tuples agree and its 1-based
position otherwise; in particular the tuples (3,2,1,6), (3,2,1,6), (2,0,0,2)
receive ranks 1, 1, 3. -/
theorem C2_compute_rank_spec (rows : List Row) :
    List.Sorted keyOrder (compute_rank rows) ∧
    ((compute_rank rows).map stripRank).Perm (rows.map stripRank) ∧
    (∀ h : 0 < (compute_rank rows).length,
      ((compute_rank rows).get ⟨0, h⟩).rank = some 1) ∧
    (∀ (j : Nat) (h2 : j + 1 < (compute_rank rows).length)
      (h1 : j < (compute_rank rows).length),
      ((compute_rank rows).get ⟨j + 1, h2⟩).rank =
        (if keyOf ((compute_rank rows).get ⟨j, h1⟩) =
            keyOf ((compute_rank rows).get ⟨j + 1, h2⟩)
         then ((compute_rank rows).get ⟨j, h1⟩).rank
         else some ((j + 2 : Nat) : Int))) ∧
    (compute_rank exampleRows).map Row.rank = [some 1, some 1, some 3] := by
  refine ⟨compute_rank_sorted rows, compute_rank_perm rows, compute_rank_head rows, ?_, by decide⟩
  intro j h2 h1
  have key := assignRanks_consec (pySortRows rows) 1 none 0 j h2 h1
  have ecast : ((1 + j + 1 : Nat) : Int) = ((j + 2 : Nat) : Int) := by
    norm_num
    omega
  rw [ecast] at key
  exact key

/-- Witness for C2 at the concrete test vector: the hypotheses of the head
and consecutive-rank conjuncts are dischargeable, giving ranks 1 and 3. -/
theorem C2_compute_rank_spec_witness :
    ((compute_rank exampleRows).get ⟨0, by decide⟩).rank = some 1 ∧
    ((compute_rank exampleRows).get ⟨2, by decide⟩).rank = some 3 := by
  constructor
  · exact (C2_compute_rank_spec exampleRows).2.2.1 (by decide)
  · have h := (C2_compute_rank_spec exampleRows).2.2.2.1 1 (by decide) (by decide)
    rw [h]
    decide

/-- C3 counterexample: `name_key` is not insensitive to diacritics and case,
because the `NAME_OVERRIDES` substitution happens before diacritics are
stripped and the table is itself diacritic- and case-sensitive: the override
maps "Türkiye" to "Turkey" (key "turkey"), while "turkiye" misses the table
and keys to "turkiye". -/
theorem C3_name_key_counterexample :
    name_key ("Türkiye") ≠ name_key ("turkiye") := by decide

/-- C3 (amended): `name_key` strips diacritics and case only after the
`NAME_OVERRIDES` substitution; inputs that the override table treats alike
and that differ only in diacritics and case receive the same key.  In
particular nameKey("Türkiye") = "turkey" = nameKey("Turkey"), while
nameKey("turkiye") = "turkiye"; away from the override table the
insensitivity does hold, e.g. on "curaçao" / "Curaçao" / "CURAÇAO". -/
theorem C3_name_key_amended :
    name_key ("Türkiye") = "turkey" ∧
    name_key ("Turkey") = "turkey" ∧
    name_key ("turkiye") = "turkiye" ∧
    name_key ("curaçao") = "curacao" ∧
    name_key ("Curaçao") = "curacao" ∧
    name_key ("CURAÇAO") = "curacao" := by decide

/-- C4: in per-row extraction the total is recomputed as
gold + silver + bronze exactly when the parsed total is 0, and is kept at the
parsed value otherwise. -/
theorem C4_total_repair {n1 n2 res : String → Option String} {row : RawRow} {r : Row}
    (h : extract_row n1 n2 res row = .ok r) :
    r.total = (if to_int row.totalCell = 0
      then r.gold + r.silver + r.bronze
      else to_int row.totalCell) := by
  obtain ⟨hg, hs, hb, ht, _, _, _⟩ := extract_row_ok_inv h
  rw [ht, hg, hs, hb]

/-- Witness for C4: a row with parsed total 0 and medals 1/1/0 is corrected
to total 2; the same medals with parsed total 5 keep total 5. -/
theorem C4_total_repair_witness : rowOkZero.total = 2 ∧ rowOkFive.total = 5 := by
  have h0 := C4_total_repair
    (by decide : extract_row witnessNoc witnessName noResolver rowTotalZero = .ok rowOkZero)
  have h5 := C4_total_repair
    (by decide : extract_row witnessNoc witnessName noResolver rowTotalFive = .ok rowOkFive)
  rw [h0, h5]
  decide

theorem rowOk_eq_some {o : RowOutcome} {r : Row} : rowOk o = some r ↔ o = .ok r := by
  cases o <;> simp [rowOk]

theorem rowUnmapped_eq_some {o : RowOutcome} {c : String} :
    rowUnmapped o = some c ↔ o = .unmappedRow c := by
  cases o <;> simp [rowUnmapped]

/-- Rows returned by the parse loop are exactly the successful extractions. -/
theorem mem_parse_rows {n1 n2 res : String → Option String} {table : List RawRow} {r : Row} :
    r ∈ (parse_medal_table n1 n2 res table).1 ↔
      ∃ a ∈ table, extract_row n1 n2 res a = .ok r := by
  simp only [parse_medal_table, List.filterMap_map, List.mem_filterMap,
    Function.comp_apply, rowOk_eq_some]

/-- Membership in `sorted(set(l))` is membership in `l`. -/
theorem mem_sortedSet {a : String} {l : List String} : a ∈ sortedSet l ↔ a ∈ l := by
  unfold sortedSet
  rw [(List.perm_insertionSort _ l.dedup).mem_iff, List.mem_dedup]

/-- C8: numeric field parsing is total (a Lean function by construction):
`to_int` always yields a non-negative integer, yields 0 when no digit
character remains after stripping non-digits, and consequently every
extracted row has non-negative gold, silver, bronze and total. -/
theorem C8_to_int_nonneg :
    (∀ v : Option String, 0 ≤ to_int v) ∧
    (∀ v : Option String, (normalize_val v).data.filter isDigitChar = [] → to_int v = 0) ∧
    (∀ (n1 n2 res : String → Option String) (table : List RawRow) (r : Row),
      r ∈ (parse_medal_table n1 n2 res table).1 →
      0 ≤ r.gold ∧ 0 ≤ r.silver ∧ 0 ≤ r.bronze ∧ 0 ≤ r.total) := by
  have hto : ∀ v : Option String, 0 ≤ to_int v := by
    intro v
    simp only [to_int]
    split
    · exact le_refl 0
    · exact Int.natCast_nonneg _
  refine ⟨hto, ?_, ?_⟩
  · intro v h
    simp [to_int, h]
  · intro n1 n2 res table r hr
    obtain ⟨a, _, hok⟩ := mem_parse_rows.mp hr
    obtain ⟨hg, hs, hb, ht, _, _, _⟩ := extract_row_ok_inv hok
    refine ⟨by rw [hg]; exact hto _, by rw [hs]; exact hto _, by rw [hb]; exact hto _, ?_⟩
    rw [ht]
    split
    · have h1 := hto a.goldCell
      have h2 := hto a.silverCell
      have h3 := hto a.bronzeCell
      omega
    · exact hto _

/-- Witness for C8 at concrete cells and a concrete parsed table. -/
theorem C8_to_int_nonneg_witness :
    (0 : Int) ≤ to_int (some ("x7y")) ∧ to_int (some ("abc")) = 0 ∧
    (0 : Int) ≤ rowOkZero.gold := by
  refine ⟨C8_to_int_nonneg.1 _, C8_to_int_nonneg.2.1 _ (by decide), ?_⟩
  exact (C8_to_int_nonneg.2.2 witnessNoc witnessName noResolver [rowTotalZero] rowOkZero
    (by decide)).1

/-- C7: a truthy fresh ETag identical to the stored `last_etag` makes the run
report "no changes" and write no output file (CSV, JSON or metadata), and
makes `etag_check` report `changed=false`; with the force flag set the
short-circuit is bypassed and processing continues with `run_body`. -/
theorem C7_etag_short_circuit (meta : Meta) (etag lm : Option String) (now : String)
    (n1 n2 res : String → Option String) (cfg : Option EuConfig) (table : List RawRow) :
    (truthyStr etag = true → meta.last_etag = etag →
      main_model false meta etag lm now n1 n2 res cfg table =
        { exitCode := 0, wroteCsv := none, wroteJson := none, wroteMeta := none } ∧
      etag_check_changed meta etag lm = false) ∧
    main_model true meta etag lm now n1 n2 res cfg table =
      run_body meta etag lm now n1 n2 res cfg table := by
  constructor
  · intro h1 h2
    have hm : etagMatch meta etag = true := by simp [etagMatch, h1, h2]
    exact ⟨by simp [main_model, shortCircuit, hm], by simp [etag_check_changed, hm]⟩
  · simp [main_model, shortCircuit]

/-- Witness for C7: a stored and fresh ETag "W/abc" short-circuits a
non-forced run into writing nothing. -/
theorem C7_etag_short_circuit_witness :
    main_model false { last_etag := some ("W/abc") } (some ("W/abc")) none ("t")
      witnessNoc witnessName noResolver none [] =
      { exitCode := 0, wroteCsv := none, wroteJson := none, wroteMeta := none } :=
  ((C7_etag_short_circuit { last_etag := some ("W/abc") } (some ("W/abc")) none ("t")
    witnessNoc witnessName noResolver none []).1 (by decide) (by decide)).1

/-- C10: `add_eu_row` appends the synthetic "European Union" row with NOC
"EU27" and `is_eu = true` unconditionally; each pre-existing row gets
`is_eu` set to whether its NOC is a member NOC; and with an absent config
file, or one without any `eu_member = true` entry, the member list is empty
and the aggregate row has all-zero medal counts and total. -/
theorem C10_add_eu_row_unconditional (rows : List Row) (cfg : Option EuConfig) :
    (add_eu_row rows (load_eu_members cfg)).getLast? =
      some (euRowOf rows (memberNocs (load_eu_members cfg))) ∧
    (euRowOf rows (memberNocs (load_eu_members cfg))).noc = "EU27" ∧
    (euRowOf rows (memberNocs (load_eu_members cfg))).country = "European Union" ∧
    (euRowOf rows (memberNocs (load_eu_members cfg))).is_eu = some true ∧
    (add_eu_row rows (load_eu_members cfg)).length = rows.length + 1 ∧
    (∀ (i : Nat) (h : i < rows.length),
      (add_eu_row rows (load_eu_members cfg))[i]? =
        some (markEu (memberNocs (load_eu_members cfg)) (rows.get ⟨i, h⟩))) ∧
    ((cfg = none ∨ ∀ m ∈ (cfg.getD {}).members, m.eu_member = false) →
      load_eu_members cfg = [] ∧
      (euRowOf rows (memberNocs (load_eu_members cfg))).gold = 0 ∧
      (euRowOf rows (memberNocs (load_eu_members cfg))).silver = 0 ∧
      (euRowOf rows (memberNocs (load_eu_members cfg))).bronze = 0 ∧
      (euRowOf rows (memberNocs (load_eu_members cfg))).total = 0) := by
  refine ⟨?_, rfl, rfl, rfl, ?_, ?_, ?_⟩
  · simp only [add_eu_row]
    exact List.getLast?_concat _
  · simp [add_eu_row]
  · intro i h
    simp only [add_eu_row]
    rw [List.getElem?_append_left (by simpa using h), List.getElem?_map,
      List.getElem?_eq_getElem (by simpa using h)]
    simp [markEu, List.get_eq_getElem]
  · intro hc
    have hms : load_eu_members cfg = [] := by
      rcases hc with rfl | hall
      · rfl
      · simp only [load_eu_members, List.filter_eq_nil_iff]
        intro m hm
        simp [hall m hm]
    rw [hms]
    refine ⟨rfl, ?_, ?_, ?_, ?_⟩ <;> simp [euRowOf, memberNocs]

/-- Witness for C10 with an absent config and one ordinary row. -/
theorem C10_add_eu_row_unconditional_witness :
    load_eu_members (none) = [] ∧
    (euRowOf [rowOkZero] (memberNocs (load_eu_members none))).gold = 0 ∧
    (add_eu_row [rowOkZero] (load_eu_members none))[0]? =
      some { rowOkZero with is_eu := some false } := by
  have h := C10_add_eu_row_unconditional [rowOkZero] none
  have he := h.2.2.2.2.2.2 (Or.inl rfl)
  refine ⟨he.1, he.2.1, ?_⟩
  have hg := h.2.2.2.2.2.1 0 (by decide)
  rw [hg]
  decide

/-- A resolver with nonempty results makes `iso2_from_country` return only
nonempty codes (the override table has nonempty codes throughout). -/
theorem iso2_from_country_ne_empty {res : String → Option String}
    (hres : ∀ s v, res s = some v → v ≠ "") {cn v : String}
    (h : iso2_from_country res cn = some v) : v ≠ "" := by
  unfold iso2_from_country at h
  split at h
  · exact Option.noConfusion h
  · split at h
    next p hp =>
      injection h with h
      subst h
      have hmem := List.mem_of_find?_eq_some hp
      have hall : ∀ q ∈ ISO2_OVERRIDES, q.2 ≠ "" := by decide
      exact hall p hmem
    next => exact hres _ _ h

/-- C9: the flag URL is present in a row exactly when iso2 is, and is then
the flag template with the lowercased code — both for rows built by
extraction (for any external fuzzy matcher returning nonempty codes, as
`pycountry` alpha-2 codes are) and, inductively, for the row set produced by
`add_eu_row`, whose synthetic row carries iso2 "EU" and the "eu" flag URL. -/
theorem C9_flag_iff_iso2 (n1 n2 res : String → Option String) (table : List RawRow)
    (rows : List Row) (mems : List MemberEntry)
    (hres : ∀ s v, res s = some v → v ≠ "") :
    (∀ r ∈ (parse_medal_table n1 n2 res table).1, flagInvariant r) ∧
    ((∀ r ∈ rows, flagInvariant r) → ∀ r ∈ add_eu_row rows mems, flagInvariant r) := by
  constructor
  · intro r hr
    obtain ⟨a, _, hok⟩ := mem_parse_rows.mp hr
    obtain ⟨_, _, _, _, hf, _, cn, hiso⟩ := extract_row_ok_inv hok
    cases hi : r.iso2 with
    | none =>
      rw [hi] at hf
      simp only [truthyStr, if_neg] at hf
      refine ⟨by simp [hf, hi], ?_⟩
      intro j hj
      rw [hi] at hj
      exact Option.noConfusion hj
    | some v =>
      have hv : v ≠ "" := by
        rw [hi] at hiso
        exact iso2_from_country_ne_empty hres hiso.symm
      rw [hi] at hf
      simp [truthyStr, hv] at hf
      refine ⟨by simp [hf, hi], ?_⟩
      intro j hj
      rw [hi] at hj
      injection hj with hj
      subst hj
      exact hf
  · intro hrows r hr
    simp only [add_eu_row, List.mem_append, List.mem_map, List.mem_singleton] at hr
    rcases hr with ⟨s, hs, rfl⟩ | rfl
    · exact hrows s hs
    · refine ⟨by simp [euRowOf], ?_⟩
      intro j hj
      have hj' : ("EU" : String) = j := by
        have : (euRowOf rows (memberNocs mems)).iso2 = some ("EU") := rfl
        rw [this] at hj
        injection hj
      subst hj'
      show (euRowOf rows (memberNocs mems)).flag_url = _
      have : (euRowOf rows (memberNocs mems)).flag_url =
          some ("https://flagcdn.com/w40/eu.png") := rfl
      rw [this]
      decide

/-- Witness for C9: the trivial resolver and a one-row table, and the
aggregate row of the aggregation test vector. -/
theorem C9_flag_iff_iso2_witness :
    (rowOkZero.flag_url.isSome ↔ rowOkZero.iso2.isSome) ∧
    (euRowOf [rowMemA] []).flag_url =
      some ("https://flagcdn.com/w40/" ++ pyLower ("EU") ++ ".png") := by
  have h := C9_flag_iff_iso2 witnessNoc witnessName noResolver [rowTotalZero] [rowMemA] []
    (fun s v hv => Option.noConfusion hv)
  constructor
  · exact (h.1 rowOkZero (by decide)).1
  · have hmem : euRowOf [rowMemA] (memberNocs []) ∈ add_eu_row [rowMemA] [] := by decide
    have hrows : ∀ r ∈ [rowMemA], flagInvariant r := by
      intro r hr
      rw [List.mem_singleton] at hr
      subst hr
      refine ⟨by decide, ?_⟩
      intro j hj
      exact Option.noConfusion hj
    have hinv := h.2 hrows _ hmem
    exact hinv.2 ("EU") rfl

/-- C5: with member NOCs A and B carrying (1,0,0) and (0,1,0) and a
non-member C carrying (5,0,0), `add_eu_row` appends exactly one synthetic
row summing the member medals to (1,1,0) with total 2, marks `is_eu = true`
exactly on A and B among the ordinary rows, and the aggregate row then
participates in `compute_rank` (receiving a rank) — `main` aggregates before
ranking. -/
theorem C5_eu_aggregate (rA rB rC : Row) (A B C : String)
    (hA : rA.noc = A) (hB : rB.noc = B) (hC : rC.noc = C)
    (hAne : A ≠ "") (hBne : B ≠ "")
    (hCA : C ≠ A) (hCB : C ≠ B)
    (hgA : rA.gold = 1) (hsA : rA.silver = 0) (hbA : rA.bronze = 0)
    (hgB : rB.gold = 0) (hsB : rB.silver = 1) (hbB : rB.bronze = 0)
    (hgC : rC.gold = 5) (hsC : rC.silver = 0) (hbC : rC.bronze = 0) :
    add_eu_row [rA, rB, rC] [⟨some A, true⟩, ⟨some B, true⟩] =
      [markEu [A, B] rA, markEu [A, B] rB, markEu [A, B] rC,
       euRowOf [rA, rB, rC] [A, B]] ∧
    (markEu [A, B] rA).is_eu = some true ∧
    (markEu [A, B] rB).is_eu = some true ∧
    (markEu [A, B] rC).is_eu = some false ∧
    (euRowOf [rA, rB, rC] [A, B]).gold = 1 ∧
    (euRowOf [rA, rB, rC] [A, B]).silver = 1 ∧
    (euRowOf [rA, rB, rC] [A, B]).bronze = 0 ∧
    (euRowOf [rA, rB, rC] [A, B]).total = 2 ∧
    (euRowOf [rA, rB, rC] [A, B]).noc = "EU27" ∧
    (∃ r ∈ compute_rank (add_eu_row [rA, rB, rC] [⟨some A, true⟩, ⟨some B, true⟩]),
      r.noc = "EU27" ∧ r.rank.isSome = true) ∧
    (∀ (force : Bool) (meta : Meta) (etag lm : Option String) (now : String)
      (n1 n2 res : String → Option String) (cfg : Option EuConfig) (table : List RawRow),
      shortCircuit force meta etag lm = false →
      (parse_medal_table n1 n2 res table).2 = [] →
      (main_model force meta etag lm now n1 n2 res cfg table).wroteCsv =
        some (compute_rank (add_eu_row (parse_medal_table n1 n2 res table).1
          (load_eu_members cfg)))) := by
  have hnocs : memberNocs [⟨some A, true⟩, ⟨some B, true⟩] = [A, B] := by
    simp [memberNocs, hAne, hBne]
  have h1 : add_eu_row [rA, rB, rC] [⟨some A, true⟩, ⟨some B, true⟩] =
      [markEu [A, B] rA, markEu [A, B] rB, markEu [A, B] rC,
       euRowOf [rA, rB, rC] [A, B]] := by
    simp only [add_eu_row, hnocs]
    rfl
  have hsum : (euRowOf [rA, rB, rC] [A, B]).gold = 1 ∧
      (euRowOf [rA, rB, rC] [A, B]).silver = 1 ∧
      (euRowOf [rA, rB, rC] [A, B]).bronze = 0 ∧
      (euRowOf [rA, rB, rC] [A, B]).total = 2 := by
    refine ⟨?_, ?_, ?_, ?_⟩ <;>
      simp [euRowOf, hA, hB, hC, hCA, hCB, hgA, hgB, hgC, hsA, hsB, hsC, hbA, hbB, hbC]
  refine ⟨h1, by simp [markEu, hA], by simp [markEu, hB],
    by simp [markEu, hC, hCA, hCB], hsum.1, hsum.2.1, hsum.2.2.1, hsum.2.2.2, rfl, ?_, ?_⟩
  · have hmem : euRowOf [rA, rB, rC] [A, B] ∈
        add_eu_row [rA, rB, rC] [⟨some A, true⟩, ⟨some B, true⟩] := by
      rw [h1]
      simp
    have h2 : stripRank (euRowOf [rA, rB, rC] [A, B]) ∈
        (compute_rank (add_eu_row [rA, rB, rC] [⟨some A, true⟩, ⟨some B, true⟩])).map
          stripRank :=
      (compute_rank_perm _).mem_iff.mpr (List.mem_map_of_mem stripRank hmem)
    obtain ⟨r, hr, hsr⟩ := List.mem_map.mp h2
    refine ⟨r, hr, ?_, assignRanks_rank_isSome _ _ _ _ r hr⟩
    have hnoc := congrArg Row.noc hsr
    simpa [stripRank] using hnoc
  · intro force meta etag lm now n1 n2 res cfg table hsc hunm
    simp [main_model, hsc, run_body, hunm, write_outputs]

/-- Witness for C5 at the concrete aggregation test vector. -/
theorem C5_eu_aggregate_witness :
    (euRowOf [rowMemA, rowMemB, rowNonC] [("AAA"), ("BBB")]).gold = 1 ∧
    (euRowOf [rowMemA, rowMemB, rowNonC] [("AAA"), ("BBB")]).silver = 1 ∧
    (euRowOf [rowMemA, rowMemB, rowNonC] [("AAA"), ("BBB")]).bronze = 0 ∧
    (euRowOf [rowMemA, rowMemB, rowNonC] [("AAA"), ("BBB")]).total = 2 ∧
    (markEu [("AAA"), ("BBB")] rowNonC).is_eu = some false := by
  have h := C5_eu_aggregate rowMemA rowMemB rowNonC ("AAA") ("BBB") ("CCC")
    rfl rfl rfl (by decide) (by decide) (by decide) (by decide)
    rfl rfl rfl rfl rfl rfl rfl rfl rfl
  exact ⟨h.2.2.2.2.1, h.2.2.2.2.2.1, h.2.2.2.2.2.2.1, h.2.2.2.2.2.2.2.1, h.2.2.2.1⟩

/-- C1: a table row whose country label resolves to no NOC is excluded from
the returned row set (parsing the table with that row erased yields the same
rows), its label lands in the unmapped list, and a run reaching parsing
aborts with exit code 1 writing neither CSV nor JSON while persisting the
metadata whose `unmapped_countries` contains the label. -/
theorem C1_unmapped_aborts (force : Bool) (meta : Meta) (etag lm : Option String)
    (now : String) (n1 n2 res : String → Option String) (cfg : Option EuConfig)
    (table : List RawRow) (i : Nat) (hi : i < table.length) (c : String)
    (hrow : extract_row n1 n2 res (table.get ⟨i, hi⟩) = .unmappedRow c)
    (hsc : shortCircuit force meta etag lm = false) :
    (parse_medal_table n1 n2 res table).1 =
      (parse_medal_table n1 n2 res (table.eraseIdx i)).1 ∧
    c ∈ (parse_medal_table n1 n2 res table).2 ∧
    (main_model force meta etag lm now n1 n2 res cfg table).exitCode ≠ 0 ∧
    (main_model force meta etag lm now n1 n2 res cfg table).wroteCsv = none ∧
    (main_model force meta etag lm now n1 n2 res cfg table).wroteJson = none ∧
    (∃ m, (main_model force meta etag lm now n1 n2 res cfg table).wroteMeta = some m ∧
      c ∈ m.unmapped_countries) := by
  have hc2 : c ∈ (parse_medal_table n1 n2 res table).2 := by
    apply mem_sortedSet.mpr
    apply List.mem_filterMap.mpr
    refine ⟨extract_row n1 n2 res (table.get ⟨i, hi⟩),
      List.mem_map_of_mem _ (List.get_mem table i hi), ?_⟩
    rw [hrow]
    rfl
  have hnone : (rowOk ∘ extract_row n1 n2 res) (table.get ⟨i, hi⟩) = none := by
    rw [Function.comp_apply, hrow]
    rfl
  have hsplit : table = table.take i ++ table.get ⟨i, hi⟩ :: table.drop (i + 1) := by
    conv_lhs => rw [← List.take_append_drop i table]
    rw [List.drop_eq_getElem_cons hi, List.get_eq_getElem]
  have h1 : (parse_medal_table n1 n2 res table).1 =
      (parse_medal_table n1 n2 res (table.eraseIdx i)).1 := by
    simp only [parse_medal_table, List.filterMap_map]
    rw [List.eraseIdx_eq_take_drop_succ]
    conv_lhs => rw [hsplit]
    rw [List.filterMap_append, List.filterMap_cons_none hnone, ← List.filterMap_append]
  have hne : (parse_medal_table n1 n2 res table).2 ≠ [] := List.ne_nil_of_mem hc2
  refine ⟨h1, hc2, ?_, ?_, ?_, ?_⟩
  · simp [main_model, hsc, run_body, hne]
  · simp [main_model, hsc, run_body, hne]
  · simp [main_model, hsc, run_body, hne]
  · refine ⟨{ meta with
              last_etag := etag, last_modified := lm,
              last_revision_id := if truthyStr etag then etag else meta.last_revision_id,
              last_update_utc := some now, source_url := MEDAL_URL,
              unmapped_countries := (parse_medal_table n1 n2 res table).2 }, ?_, hc2⟩
    simp [main_model, hsc, run_body, hne]

/-- Witness for C1: the single-row table whose label "Atlantis" has no
registry match aborts the forced run with the label recorded. -/
theorem C1_unmapped_aborts_witness :
    (main_model true {} none none ("t") witnessNoc witnessName noResolver none
      [rowAtlantis]).exitCode ≠ 0 ∧
    ("Atlantis" : String) ∈
      (parse_medal_table witnessNoc witnessName noResolver [rowAtlantis]).2 := by
  have h := C1_unmapped_aborts true {} none none ("t") witnessNoc witnessName noResolver
    none [rowAtlantis] 0 (by decide) ("Atlantis") (by decide) (by decide)
  exact ⟨h.2.2.1, h.2.1⟩

-- ### Lemmas on the bracket-stripping scan

theorem dropToClose_suffix : ∀ {l l' : List Char}, dropToClose l = some l' → l' <:+ l := by
  intro l
  induction l with
  | nil => intro l' h; exact Option.noConfusion h
  | cons c cs ih =>
    intro l' h
    rw [dropToClose] at h
    split at h
    · injection h with h
      subst h
      exact ⟨[c], rfl⟩
    · split at h
      · exact Option.noConfusion h
      · exact (ih h).trans ⟨[c], rfl⟩

theorem dropToClose_none_of_no_close : ∀ {l : List Char}, ']' ∉ l → dropToClose l = none := by
  intro l
  induction l with
  | nil => intro _; rfl
  | cons c cs ih =>
    intro h
    have hc : ¬c = ']' := fun hc => h (by rw [hc]; exact List.mem_cons_self _ _)
    rw [dropToClose, if_neg hc]
    split
    · rfl
    · exact ih (fun hm => h (List.mem_cons_of_mem c hm))

theorem dropToClose_no_close_of_none : ∀ {l : List Char}, '\n' ∉ l →
    dropToClose l = none → ']' ∉ l := by
  intro l
  induction l with
  | nil => intro _ _ h; cases h
  | cons c cs ih =>
    intro hnl h hm
    rw [dropToClose] at h
    split at h
    · exact Option.noConfusion h
    · split at h
      next hnewline =>
        exact hnl (hnewline ▸ List.mem_cons_self c cs)
      next hc hnewline =>
        rcases List.mem_cons.mp hm with rfl | hm
        · exact hc rfl
        · exact ih (fun hx => hnl (List.mem_cons_of_mem c hx)) h hm

theorem sbF_sublist : ∀ (fuel : Nat) (l : List Char), (sbF fuel l).Sublist l := by
  intro fuel
  induction fuel with
  | zero =>
    intro l
    cases l with
    | nil => exact List.Sublist.refl _
    | cons c cs => exact List.Sublist.refl _
  | succ fuel ih =>
    intro l
    cases l with
    | nil => exact List.Sublist.refl _
    | cons c cs =>
      rw [sbF]
      split
      · split
        next cs' hdrop =>
          exact ((ih cs').trans (dropToClose_suffix hdrop).sublist).trans
            (List.sublist_cons_self c cs)
        next =>
          exact (ih cs).cons₂ c
      · exact (ih cs).cons₂ c

theorem goodB_of_sublist {l l' : List Char} (h : l'.Sublist l) (hg : goodB l) : goodB l' :=
  List.Pairwise.sublist h hg

theorem sbF_eq_self_of_goodB : ∀ (fuel : Nat) (l : List Char), goodB l → sbF fuel l = l := by
  intro fuel
  induction fuel with
  | zero =>
    intro l _
    cases l with
    | nil => rfl
    | cons c cs => rfl
  | succ fuel ih =>
    intro l hg
    cases l with
    | nil => rfl
    | cons c cs =>
      rw [sbF]
      have htail : goodB cs := (List.pairwise_cons.mp hg).2
      split
      next hc =>
        subst hc
        have hnoclose : ']' ∉ cs := by
          intro hm
          exact (List.pairwise_cons.mp hg).1 ']' hm ⟨rfl, rfl⟩
        rw [dropToClose_none_of_no_close hnoclose, ih cs htail]
      next =>
        rw [ih cs htail]

theorem goodB_sbF : ∀ (fuel : Nat) (l : List Char), '\n' ∉ l → l.length ≤ fuel →
    goodB (sbF fuel l) := by
  intro fuel
  induction fuel with
  | zero =>
    intro l _ hlen
    have : l = [] := List.eq_nil_of_length_eq_zero (Nat.le_zero.mp hlen)
    subst this
    exact List.Pairwise.nil
  | succ fuel ih =>
    intro l hnl hlen
    cases l with
    | nil => exact List.Pairwise.nil
    | cons c cs =>
      have hnlcs : '\n' ∉ cs := fun hx => hnl (List.mem_cons_of_mem c hx)
      have hlencs : cs.length ≤ fuel := by
        simp only [List.length_cons] at hlen
        omega
      rw [sbF]
      split
      next hc =>
        subst hc
        split
        next cs' hdrop =>
          have hsuf := dropToClose_suffix hdrop
          obtain ⟨t, ht⟩ := hsuf
          have hnl' : '\n' ∉ cs' := fun hx => hnlcs (ht ▸ List.mem_append_right t hx)
          have hlen' : cs'.length ≤ fuel := by
            have := congrArg List.length ht
            simp only [List.length_append] at this
            omega
          exact ih cs' hnl' hlen'
        next hdrop =>
          have hnoclose : ']' ∉ cs := dropToClose_no_close_of_none hnlcs hdrop
          refine List.Pairwise.cons ?_ (ih cs hnlcs hlencs)
          intro b hb hcontra
          exact hnoclose (hcontra.2 ▸ (sbF_sublist fuel cs).mem hb)
      next hc =>
        refine List.Pairwise.cons ?_ (ih cs hnlcs hlencs)
        intro b hb hcontra
        exact hc hcontra.1

theorem stripBrackets_eq_self_of_goodB {l : List Char} (h : goodB l) :
    stripBrackets l = l :=
  sbF_eq_self_of_goodB l.length l h

theorem stripBrackets_sublist (l : List Char) : (stripBrackets l).Sublist l :=
  sbF_sublist l.length l

theorem goodB_stripBrackets {l : List Char} (h : '\n' ∉ l) : goodB (stripBrackets l) :=
  goodB_sbF l.length l h (le_refl _)

-- ### Lemmas on whitespace collapsing

theorem squeezeSpaces_sublist : ∀ (l : List Char), (squeezeSpaces l).Sublist l := by
  intro l
  induction l with
  | nil => exact List.Sublist.refl _
  | cons c cs ih =>
    rw [squeezeSpaces]
    cases h : squeezeSpaces cs with
    | nil =>
      rw [h] at ih
      rw [squeezeCons]
      exact ih.cons₂ c
    | cons d ds =>
      rw [h] at ih
      rw [squeezeCons]
      split
      · exact ih.cons c
      · exact ih.cons₂ c

theorem squeezeSpaces_noDoubleSpace : ∀ (l : List Char), noDoubleSpace (squeezeSpaces l) := by
  intro l
  induction l with
  | nil => exact List.chain'_nil
  | cons c cs ih =>
    rw [squeezeSpaces]
    cases h : squeezeSpaces cs with
    | nil =>
      rw [squeezeCons]
      simp [noDoubleSpace]
    | cons d ds =>
      rw [h] at ih
      rw [squeezeCons]
      split
      next hsp => exact ih
      next hsp =>
        refine List.Chain'.cons ?_ ih
        intro hcontra
        exact hsp (by rw [hcontra.1, hcontra.2]; simp)

theorem squeezeSpaces_eq_self_of_noDoubleSpace :
    ∀ (l : List Char), noDoubleSpace l → squeezeSpaces l = l := by
  intro l
  induction l with
  | nil => intro _; rfl
  | cons c cs ih =>
    intro h
    have htail : noDoubleSpace cs := List.Chain'.tail h
    rw [squeezeSpaces, ih htail]
    cases cs with
    | nil => rfl
    | cons d ds =>
      have hrel : ¬(c = ' ' ∧ d = ' ') := (List.chain'_cons.mp h).1
      rw [squeezeCons, if_neg (by simpa using hrel)]

-- ### Lemmas on trimming

theorem dropWhile_idem (p : Char → Bool) :
    ∀ (l : List Char), List.dropWhile p (List.dropWhile p l) = List.dropWhile p l := by
  intro l
  induction l with
  | nil => rfl
  | cons c cs ih =>
    rw [List.dropWhile_cons]
    split
    · exact ih
    next h => rw [List.dropWhile_cons, if_neg h]

theorem dropTrailing_eq_append (l : List Char) : ∃ t, l = dropTrailing l ++ t := by
  obtain ⟨t, ht⟩ := @List.dropWhile_suffix Char l.reverse pyIsSpace
  refine ⟨t.reverse, ?_⟩
  have h2 := congrArg List.reverse ht
  simp only [List.reverse_append, List.reverse_reverse] at h2
  show l = (List.dropWhile pyIsSpace l.reverse).reverse ++ t.reverse
  exact h2.symm

theorem dropTrailing_sublist (l : List Char) : (dropTrailing l).Sublist l := by
  obtain ⟨t, ht⟩ := dropTrailing_eq_append l
  conv_rhs => rw [ht]
  exact List.sublist_append_left _ _

theorem stripEnds_sublist (l : List Char) : (stripEnds l).Sublist l :=
  (dropTrailing_sublist _).trans (List.dropWhile_sublist _)

theorem chain'_of_append_left {R : Char → Char → Prop} {l₁ l₂ : List Char}
    (h : List.Chain' R (l₁ ++ l₂)) : List.Chain' R l₁ :=
  List.Chain'.left_of_append h

theorem stripEnds_noDoubleSpace {l : List Char} (h : noDoubleSpace l) :
    noDoubleSpace (stripEnds l) := by
  have h1 : noDoubleSpace (List.dropWhile pyIsSpace l) := by
    obtain ⟨t, ht⟩ := @List.dropWhile_suffix Char l pyIsSpace
    rw [← ht] at h
    exact List.Chain'.right_of_append h
  obtain ⟨t, ht⟩ := dropTrailing_eq_append (List.dropWhile pyIsSpace l)
  rw [ht] at h1
  exact List.Chain'.left_of_append h1

theorem dropWhile_eq_self_of_eq_append {p : Char → Bool} {m d : List Char}
    (hm : List.dropWhile p m = m) (t : List Char) (ht : m = d ++ t) :
    List.dropWhile p d = d := by
  cases d with
  | nil => rfl
  | cons c cs =>
    have hpc : p c = false := by
      cases hpv : p c with
      | false => rfl
      | true =>
        exfalso
        rw [ht, List.cons_append, List.dropWhile_cons, if_pos hpv] at hm
        have hlen := congrArg List.length hm
        have hsub := (@List.dropWhile_sublist Char (cs ++ t) p).length_le
        simp only [List.length_cons, List.length_append] at hlen hsub
        omega
    rw [List.dropWhile_cons, if_neg (by rw [hpc]; exact Bool.false_ne_true)]

theorem dropTrailing_idem (l : List Char) : dropTrailing (dropTrailing l) = dropTrailing l := by
  unfold dropTrailing
  rw [List.reverse_reverse, dropWhile_idem]

theorem stripEnds_idem (l : List Char) : stripEnds (stripEnds l) = stripEnds l := by
  unfold stripEnds
  obtain ⟨t, ht⟩ := dropTrailing_eq_append (List.dropWhile pyIsSpace l)
  rw [dropWhile_eq_self_of_eq_append (dropWhile_idem pyIsSpace l) t ht, dropTrailing_idem]

-- ### Character-content lemmas for the stages of `normCore`

theorem map_eq_self {f : Char → Char} :
    ∀ {l : List Char}, (∀ c ∈ l, f c = c) → l.map f = l := by
  intro l
  induction l with
  | nil => intro _; rfl
  | cons c cs ih =>
    intro h
    rw [List.map_cons, h c (List.mem_cons_self _ _),
      ih (fun a ha => h a (List.mem_cons_of_mem c ha))]

theorem goodB_map {f : Char → Char} (h1 : ∀ a, f a = '[' → a = '[')
    (h2 : ∀ a, f a = ']' → a = ']') {l : List Char} (hg : goodB l) :
    goodB (l.map f) := by
  unfold goodB at hg ⊢
  rw [List.pairwise_map]
  exact hg.imp (fun hab hcontra => hab ⟨h1 _ hcontra.1, h2 _ hcontra.2⟩)

theorem nbspToSpace_eq_of_ne_space {a b : Char} (hb : b ≠ ' ')
    (h : nbspToSpace a = b) : a = b := by
  unfold nbspToSpace at h
  split at h
  · exact absurd h.symm hb
  · exact h

theorem wsToSpace_eq_of_ne_space {a b : Char} (hb : b ≠ ' ')
    (h : wsToSpace a = b) : a = b := by
  unfold wsToSpace at h
  split at h
  · exact absurd h.symm hb
  · exact h

theorem wsToSpace_space_out {a : Char} (h : pyIsSpace (wsToSpace a) = true) :
    wsToSpace a = ' ' := by
  by_cases hp : pyIsSpace a = true
  · unfold wsToSpace
    rw [if_pos hp]
  · unfold wsToSpace at h
    rw [if_neg hp] at h
    exact absurd h hp

theorem wsToSpace_not_dagger {a : Char} (ha : isDagger a = false) :
    isDagger (wsToSpace a) = false := by
  unfold wsToSpace
  split
  · decide
  · exact ha

-- ### The invariants of normalized text

theorem normCore_space_only (l : List Char) :
    ∀ c ∈ normCore l, pyIsSpace c = true → c = ' ' := by
  intro c hc hsp
  unfold normCore at hc
  have h4 := List.Sublist.mem hc
    ((stripEnds_sublist _).trans (squeezeSpaces_sublist _))
  obtain ⟨a, _, rfl⟩ := List.mem_map.mp h4
  exact wsToSpace_space_out hsp

theorem normCore_no_dagger (l : List Char) :
    ∀ c ∈ normCore l, isDagger c = false := by
  intro c hc
  unfold normCore at hc
  have h4 := List.Sublist.mem hc
    ((stripEnds_sublist _).trans (squeezeSpaces_sublist _))
  obtain ⟨a, ha, rfl⟩ := List.mem_map.mp h4
  have hnd : (!isDagger a) = true := (List.mem_filter.mp ha).2
  exact wsToSpace_not_dagger (by simpa using hnd)

theorem normCore_noDoubleSpace (l : List Char) : noDoubleSpace (normCore l) :=
  stripEnds_noDoubleSpace (squeezeSpaces_noDoubleSpace _)

theorem normCore_stripEnds (l : List Char) : stripEnds (normCore l) = normCore l := by
  unfold normCore
  exact stripEnds_idem _

theorem normCore_goodB {l : List Char} (hnl : '\n' ∉ l) : goodB (normCore l) := by
  unfold normCore
  have g2 : goodB (List.map nbspToSpace (stripBrackets l)) :=
    goodB_map (fun a => nbspToSpace_eq_of_ne_space (by decide))
      (fun a => nbspToSpace_eq_of_ne_space (by decide)) (goodB_stripBrackets hnl)
  have g3 : goodB (List.filter (fun c => !isDagger c)
      (List.map nbspToSpace (stripBrackets l))) :=
    goodB_of_sublist (List.filter_sublist _) g2
  have g4 : goodB (List.map wsToSpace (List.filter (fun c => !isDagger c)
      (List.map nbspToSpace (stripBrackets l)))) :=
    goodB_map (fun a => wsToSpace_eq_of_ne_space (by decide))
      (fun a => wsToSpace_eq_of_ne_space (by decide)) g3
  have g5 : goodB (squeezeSpaces (List.map wsToSpace (List.filter (fun c => !isDagger c)
      (List.map nbspToSpace (stripBrackets l))))) :=
    goodB_of_sublist (squeezeSpaces_sublist _) g4
  exact goodB_of_sublist (stripEnds_sublist _) g5

/-- Idempotence of the normalization body on newline-free inputs: its output
is a fixed point of every stage. -/
theorem normCore_idem {l : List Char} (hnl : '\n' ∉ l) :
    normCore (normCore l) = normCore l := by
  have hy1 : stripBrackets (normCore l) = normCore l :=
    stripBrackets_eq_self_of_goodB (normCore_goodB hnl)
  have hy2 : (normCore l).map nbspToSpace = normCore l := by
    apply map_eq_self
    intro c hc
    by_cases h : c = '\xa0'
    · have hsp : pyIsSpace c = true := by rw [h]; decide
      have hcsp := normCore_space_only l c hc hsp
      rw [hcsp] at h
      exact absurd h (by decide)
    · unfold nbspToSpace
      rw [if_neg h]
  have hy3 : (normCore l).filter (fun c => !isDagger c) = normCore l := by
    apply List.filter_eq_self.mpr
    intro a ha
    rw [normCore_no_dagger l a ha]
    rfl
  have hy4 : (normCore l).map wsToSpace = normCore l := by
    apply map_eq_self
    intro c hc
    by_cases h : pyIsSpace c = true
    · have hcsp := normCore_space_only l c hc h
      unfold wsToSpace
      rw [if_pos h, hcsp]
    · unfold wsToSpace
      rw [if_neg h]
  have hy5 : squeezeSpaces (normCore l) = normCore l :=
    squeezeSpaces_eq_self_of_noDoubleSpace _ (normCore_noDoubleSpace l)
  have hy6 : stripEnds (normCore l) = normCore l := normCore_stripEnds l
  conv_lhs => rw [normCore]
  rw [hy1, hy2, hy3, hy4, hy5, hy6]

/-- C6 counterexample: `normalize` is not idempotent on every string.  The
regex `\[.*?\]` cannot match across a newline, so the bracketed segment of
"[a\nb]" survives the first pass; but that pass collapses the newline to a
space, and the second pass then removes the whole segment. -/
theorem C6_normalize_counterexample :
    normalize_text (normalize_text ("[a\nb]")) ≠ normalize_text ("[a\nb]") := by decide

/-- C6 (amended): `normalize` is a total pure function; it removes bracketed
citation markers, non-breaking spaces and the glyphs †, ‡, *, collapses
whitespace runs to single spaces and trims (in particular the "United
States[1] †" example, and in general the output has no dagger glyph, no
whitespace other than single spaces, and is trimmed); it is idempotent on
every string that contains no newline character — but not on all strings,
see the counterexample. -/
theorem C6_normalize_amended :
    (∀ s : String, '\n' ∉ s.data →
      normalize_text (normalize_text s) = normalize_text s) ∧
    (∀ (s : String), ∀ c ∈ (normalize_text s).data,
      isDagger c = false ∧ (pyIsSpace c = true → c = ' ')) ∧
    (∀ s : String, noDoubleSpace (normalize_text s).data) ∧
    (∀ s : String, stripEnds (normalize_text s).data = (normalize_text s).data) ∧
    normalize_text ("United States[1] †") = "United States" := by
  refine ⟨?_, ?_, ?_, ?_, by decide⟩
  · intro s hs
    show (⟨normCore (normCore s.data)⟩ : String) = ⟨normCore s.data⟩
    exact congrArg String.mk (normCore_idem hs)
  · intro s c hc
    exact ⟨normCore_no_dagger s.data c hc, normCore_space_only s.data c hc⟩
  · intro s
    exact normCore_noDoubleSpace s.data
  · intro s
    exact normCore_stripEnds s.data

/-- Witness for C6 (amended) at a concrete newline-free string with brackets,
double spaces and a dagger. -/
theorem C6_normalize_amended_witness :
    ('\n' ∉ ("a[1]  b†" : String).data) ∧
    normalize_text (normalize_text ("a[1]  b†")) = normalize_text ("a[1]  b†") :=
  ⟨by decide, C6_normalize_amended.1 ("a[1]  b†") (by decide)⟩

end Medals

-- Sanity examples for the text layer (claims use these definitions below).
example : Medals.normalize_text ("United States[1] †") = "United States" := by decide
example : Medals.name_key ("Türkiye") = "turkey" := by decide
example : Medals.name_key ("turkiye") = "turkiye" := by decide
example : Medals.to_int (some (" 1,234 pts")) = 1234 := by decide
example : Medals.to_int (none) = 0 := by decide
example : Medals.normalize_text ("[a\nb]") = "[a b]" := by decide
example : Medals.normalize_text ("[a b]") = "" := by decide
